import Mathlib

/-
Verification of the shamir repository (Shamir secret sharing over Z/pZ).

The definitions below are a shallow embedding of the Python sources:
  - src/shamir/mod_util.py   (eval_poly_mod, lagrange_interpolate)
  - src/shamir/share.py      (Share, ShareFactory.common_prefix)
  - src/shamir/shamir.py     (Shamir.generate_pool, Shamir._rec_generate_pool,
                              Shamir.extend_pool, Shamir.recover_secret,
                              Shamir._combine_shares, ShamirSpec)

Python integers are modelled as ℤ.  The Python binary operator a % b with
b > 0 agrees with Lean Int.emod (result in [0, b)), so % translates
directly.  Python exceptions are modelled with an Except monad over the
error kind PyErr; a raised exception is an .error result.  Randomness is
modelled by universally quantified outcome parameters: the list of random
coefficients drawn for a polynomial, and (when rand_indices is given) the
sampled index list, are passed in explicitly and constrained in theorem
hypotheses exactly as the random sources would produce them.
-/

namespace Shamir

/-- Kinds of Python exception raised by the modelled code.  valueError
carries the message string used at the corresponding raise site;
typeError models TypeError raised by comparing None with an int;
indexError models IndexError from an out-of-range sequence subscript;
keyError models KeyError from a missing dict key. -/
inductive PyErr where
  | valueError (msg : String)
  | typeError
  | indexError
  | keyError
deriving DecidableEq, Repr

/-- Model of mod_util.eval_poly_mod (src/shamir/mod_util.py lines 8-20):
Horner evaluation of a polynomial given by its coefficient list in
increasing order of exponent; the accumulator is reduced mod modulus at
every step (accum = (accum * x + coeff) % modulus, iterating over the
reversed coefficient list). -/
def eval_poly_mod (poly_coeffs : List ℤ) (x modulus : ℤ) : ℤ :=
  poly_coeffs.reverse.foldl (fun accum coeff => (accum * x + coeff) % modulus) 0

/-- Model of the Python builtin pow(a, -1, m): the canonical modular
inverse of a modulo m, computed through the extended Euclidean algorithm
(Bezout coefficient Int.gcdA), or ValueError when gcd(a, m) is not 1.
For gcd(a, m) = 1 the value Int.gcdA a m % m is the unique integer b in
[0, m) with a * b congruent to 1 mod m, which is what pow returns. -/
def powNegOne (a m : ℤ) : Except PyErr ℤ :=
  if Int.gcd a m = 1 then .ok (Int.gcdA a m % m)
  else .error (.valueError "base is not invertible")

/-- Model of the inner loop of mod_util.lagrange_interpolate
(src/shamir/mod_util.py lines 36-40): starting from term = y_s[i], for
each o among the other x-coordinates multiply by (x - o) and by the
modular inverse of (cur - o), reducing mod modulus each iteration. -/
def lagrangeTermLoop (x cur modulus : ℤ) : ℤ → List ℤ → Except PyErr ℤ
  | term, [] => .ok term
  | term, o :: others =>
      match powNegOne (cur - o) modulus with
      | .error e => .error e
      | .ok inv => lagrangeTermLoop x cur modulus ((term * (x - o) * inv) % modulus) others

/-- Model of the outer loop of mod_util.lagrange_interpolate
(src/shamir/mod_util.py lines 32-41): iterate i over the positions of
x_s; at each position, cur is the current x-coordinate, pre holds the
already visited x-coordinates (in order) and post the remaining ones, so
pre ++ post is the Python list others (x_s with position i removed); term
i is accumulated into the running sum.  Consuming y_s positionally models
y_s[i] (IndexError when y_s is too short). -/
def lagrangeSumLoop (x modulus : ℤ) : List ℤ → List ℤ → List ℤ → Except PyErr ℤ
  | _, [], _ => .ok 0
  | pre, cur :: post, ys =>
      match ys with
      | [] => .error .indexError
      | y :: ys2 =>
          match lagrangeTermLoop x cur modulus y (pre ++ post) with
          | .error e => .error e
          | .ok term =>
              match lagrangeSumLoop x modulus (pre ++ [cur]) post ys2 with
              | .error e => .error e
              | .ok rest => .ok (term + rest)

/-- Model of mod_util.lagrange_interpolate (src/shamir/mod_util.py lines
23-43).  The guard k != len(set(x_s)) is the comparison of the length of
x_s with its number of distinct elements, i.e. with x_s.dedup.length;
after the loop the accumulated sum is reduced mod modulus. -/
def lagrange_interpolate (x : ℤ) (x_s y_s : List ℤ) (modulus : ℤ) : Except PyErr ℤ :=
  if x_s.dedup.length ≠ x_s.length then .error (.valueError "points must be distinct")
  else
    match lagrangeSumLoop x modulus [] x_s y_s with
    | .error e => .error e
    | .ok accum => .ok (accum % modulus)

/-- Proof-side abbreviation: the product, over the listed other
x-coordinates, of (x - o) * (cur - o)⁻¹ in ZMod p. -/
def nodeProd (p : ℕ) (x cur : ℤ) (l : List ℤ) : ZMod p :=
  (l.map (fun o => ((x - o : ℤ) : ZMod p) * ((cur - o : ℤ) : ZMod p)⁻¹)).prod

/- ------------------------------------------------------------------ -/
/- Model of src/shamir/share.py.                                       -/
/- ------------------------------------------------------------------ -/

/-- Model of the Share dataclass (src/shamir/share.py lines 98-115): a
value together with a path of integers.  The Python attribute holding
the path is the field named after the path-prefix of the share; we call
it path here. -/
structure Share where
  value : ℤ
  path : List ℤ
deriving DecidableEq, Repr

/-- Model of Share.x (src/shamir/share.py lines 110-114): the last path
element, or None for an empty path. -/
def Share.x (sh : Share) : Option ℤ :=
  sh.path.getLast?

/-- Model of ShareFactory._common_prefix_length (src/shamir/share.py
lines 83-90): the index of the first mismatch between the two paths, or
the length of the shorter path if there is none. -/
def commonPrefixLength : List ℤ → List ℤ → ℕ
  | a :: as2, b :: bs => if a ≠ b then 0 else commonPrefixLength as2 bs + 1
  | _, _ => 0

/-- Model of ShareFactory._common_prefix (src/shamir/share.py lines
92-95). -/
def commonPrefix2 (p1 p2 : List ℤ) : List ℤ :=
  p1.take (commonPrefixLength p1 p2)

/-- Model of ShareFactory.common_prefix (src/shamir/share.py lines
73-81): fold the binary common-prefix over the collection, or raise on
an empty collection. -/
def commonPrefix (shares : List Share) : Except PyErr (List ℤ) :=
  match shares with
  | [] => .error (.valueError "list of shares is empty")
  | sh :: rest => .ok (rest.foldl (fun pr s2 => commonPrefix2 pr s2.path) sh.path)

/- ------------------------------------------------------------------ -/
/- Model of src/shamir/shamir.py: the ShamirSpec data class.           -/
/- ------------------------------------------------------------------ -/

mutual
/-- Model of the shares field of ShamirSpec (src/shamir/shamir.py lines
242-264): either an int (flat) or a tuple whose entries are ints or
pairs of an int and a sub-specification. -/
inductive SpecShares where
  | flat (n : ℤ)
  | entries (es : EntryList)

/-- The entries of a tuple-valued shares field, in order. -/
inductive EntryList where
  | nil
  | consPlain (n : ℤ) (rest : EntryList)
  | consSplit (cnt : ℤ) (sub : ShamirSpec) (rest : EntryList)

/-- Model of the ShamirSpec dataclass (src/shamir/shamir.py lines
242-264): a threshold together with the shares field. -/
inductive ShamirSpec where
  | mk (threshold : ℤ) (shares : SpecShares)
end

/-- Model of ShamirSpec.num_shares (src/shamir/shamir.py lines 266-279).
When shares is an int that count is returned.  When shares is a tuple
the source computes a local accumulator but falls off the end of the
method with no return statement, so the Python method returns None;
that outcome is modelled as none. -/
def num_shares : ShamirSpec → Option ℤ
  | .mk _ (.flat n) => some n
  | .mk _ (.entries _) => none

/-- The multiplicity checks of ShamirSpec.validate (src/shamir/shamir.py
lines 322-334) for a tuple-valued shares field, in entry order. -/
def checkEntryMults : EntryList → Except PyErr Unit
  | .nil => .ok ()
  | .consPlain n rest =>
      if n < 1 then .error (.valueError "nonpositive share multiplicity")
      else checkEntryMults rest
  | .consSplit cnt _ rest =>
      if cnt < 1 then .error (.valueError "nonpositive sub-specification multiplicity")
      else checkEntryMults rest

mutual
/-- Model of ShamirSpec.validate (src/shamir/shamir.py lines 312-344):
check the threshold, then every multiplicity, then compare num_shares
with the threshold, then recurse into sub-specifications.  For a
tuple-valued shares field num_shares returns None and the Python
comparison None < threshold raises TypeError. -/
def validate : ShamirSpec → Except PyErr Unit
  | .mk threshold shares =>
      if threshold < 1 then .error (.valueError "threshold is nonpositive")
      else
        let multCheck : Except PyErr Unit :=
          match shares with
          | .flat n =>
              if n < 1 then .error (.valueError "nonpositive share multiplicity")
              else .ok ()
          | .entries es => checkEntryMults es
        match multCheck with
        | .error e => .error e
        | .ok _ =>
            match num_shares (.mk threshold shares) with
            | none => .error .typeError
            | some m =>
                if m < threshold then
                  .error (.valueError "secret not recoverable from specified shares")
                else
                  match shares with
                  | .flat _ => .ok ()
                  | .entries es => validateSubs es

/-- The recursive sub-specification validation loop of
ShamirSpec.validate (src/shamir/shamir.py lines 340-344). -/
def validateSubs : EntryList → Except PyErr Unit
  | .nil => .ok ()
  | .consPlain _ rest => validateSubs rest
  | .consSplit _ sub rest =>
      match validate sub with
      | .error e => .error e
      | .ok _ => validateSubs rest
end

/- ------------------------------------------------------------------ -/
/- Model of src/shamir/shamir.py: the Shamir engine.                   -/
/- ------------------------------------------------------------------ -/

/-- The sequential index list of step 2 of Shamir._rec_generate_pool
(src/shamir/shamir.py line 94): range(1, num_shares + 1). -/
def seqIndices (n : ℤ) : List ℤ :=
  List.map (fun j : ℕ => (j : ℤ) + 1) (List.range n.toNat)

/-- Model of Shamir._rec_generate_pool (src/shamir/shamir.py lines
78-131).  The random coefficients drawn in step 1 are the
nondeterministic parameter cs (the source draws threshold - 1 values
from [0, p)); when rand_indices is given, the outcome of the sampling
index_rng.sample(range(1, rand_indices + 1), num_shares) is the
nondeterministic parameter sampled.  For a tuple-valued shares field,
num_shares returns None (missing return in the source, see num_shares),
so the Python comparison num_shares >= p raises TypeError before any
coefficient is drawn; the tuple branch of step 4 and the recursive
descent are therefore unreachable, which the model reflects by the
typeError outcome in the entries case. -/
def rec_generate_pool (p : ℤ) (secret : Share) (spec : ShamirSpec)
    (cs : List ℤ) (sampled : Option (List ℤ)) : Except PyErr (List Share) :=
  match num_shares spec with
  | none => .error .typeError
  | some n =>
      if n ≥ p then
        .error (.valueError "specified number of shares is too large for prime modulus")
      else
        let coeffs := (secret.value % p) :: cs
        let indices : List ℤ :=
          match sampled with
          | none => seqIndices n
          | some l => l
        .ok (indices.map (fun x => ⟨eval_poly_mod coeffs x p, secret.path ++ [x]⟩))

/-- Model of Shamir.generate_pool (src/shamir/shamir.py lines 39-76):
the secret is typed as a Share, the specification is validated, and the
recursive generation runs with the randomness outcomes cs and sampled
(sampled is none exactly when rand_indices is None). -/
def generate_pool (p : ℤ) (secret : Share) (spec : ShamirSpec)
    (cs : List ℤ) (sampled : Option (List ℤ)) : Except PyErr (List Share) :=
  match validate spec with
  | .error e => .error e
  | .ok _ => rec_generate_pool p secret spec cs sampled

/-- Lookup in an insertion-ordered association list modelling a Python
dict from paths to share lists. -/
def poolLookup : List (List ℤ × List Share) → List ℤ → Option (List Share)
  | [], _ => none
  | e :: rest, k => if e.1 = k then some e.2 else poolLookup rest k

/-- Model of dict key creation: share_pool[pr] = list() executed only
when pr is not yet a key (src/shamir/shamir.py lines 204-207); a fresh
key goes to the end, matching dict insertion order. -/
def poolInsertKey (pool : List (List ℤ × List Share)) (k : List ℤ) :
    List (List ℤ × List Share) :=
  if pool.any (fun e => e.1 = k) then pool else pool ++ [(k, [])]

/-- Model of share_pool[k].append(sh): append to the list at an existing
key, or KeyError when the key is absent (src/shamir/shamir.py lines 208
and 224). -/
def poolAppendVal : List (List ℤ × List Share) → List ℤ → Share →
    Except PyErr (List (List ℤ × List Share))
  | [], _, _ => .error .keyError
  | e :: rest, k, sh =>
      if e.1 = k then .ok ((e.1, e.2 ++ [sh]) :: rest)
      else
        match poolAppendVal rest k sh with
        | .error er => .error er
        | .ok rest2 => .ok (e :: rest2)

/-- The inner loop of the pool construction of Shamir._combine_shares
(src/shamir/shamir.py lines 204-207): insert the keys sh.prefix[:i] for
i from len_common_prefix to len(sh.prefix) - 1, in order. -/
def insertPrefixKeys (pool : List (List ℤ × List Share)) (pr : List ℤ) (lenc : ℕ) :
    List (List ℤ × List Share) :=
  (List.range (pr.length - lenc)).foldl (fun pl j => poolInsertKey pl (pr.take (lenc + j))) pool

/-- The pool construction loop of Shamir._combine_shares
(src/shamir/shamir.py lines 202-208): for each share, insert all prefix
keys from the common prefix length up to the full path, then append the
share at the key sh.prefix[:-1]. -/
def buildPool (lenc : ℕ) : List Share → List (List ℤ × List Share) →
    Except PyErr (List (List ℤ × List Share))
  | [], pool => .ok pool
  | sh :: rest, pool =>
      match poolAppendVal (insertPrefixKeys pool sh.path lenc) sh.path.dropLast sh with
      | .error e => .error e
      | .ok pool2 => buildPool lenc rest pool2

/-- Stable insertion into a list sorted by path length in descending
order: walk past strictly longer keys, then insert before the first key
of equal or smaller length, so earlier elements of equal length stay
first. -/
def insertByLenDesc (k : List ℤ) : List (List ℤ) → List (List ℤ)
  | [] => [k]
  | k2 :: rest =>
      if k.length < k2.length then k2 :: insertByLenDesc k rest else k :: k2 :: rest

/-- Model of all_prefixes.sort(key=len, reverse=True)
(src/shamir/shamir.py lines 211-212): a stable sort of the keys by
length, longest first, implemented as a stable insertion sort with the
same observable result as the Python stable sort. -/
def sortByLenDesc (ks : List (List ℤ)) : List (List ℤ) :=
  ks.foldr insertByLenDesc []

/-- The x-coordinates of a share group, via Share.x
(src/shamir/shamir.py line 214).  A share with an empty path yields the
Python value None, on which the subsequent interpolation arithmetic
raises TypeError; group members always carry non-empty paths, so this
outcome is unreachable in actual runs. -/
def sharesXs : List Share → Except PyErr (List ℤ)
  | [] => .ok []
  | sh :: rest =>
      match Share.x sh with
      | none => .error .typeError
      | some v =>
          match sharesXs rest with
          | .error e => .error e
          | .ok vs => .ok (v :: vs)

/-- The merge loop of Shamir._combine_shares (src/shamir/shamir.py
lines 210-226): process the sorted prefixes from longest to shortest;
interpolate each group at x = 0; stop with the merged share when its
prefix is the common prefix, otherwise fold the merged share into the
group of its parent prefix.  When the loop ends without a break the
Python method returns the initial result None. -/
def mergeLoop (p : ℤ) (common : List ℤ) :
    List (List ℤ) → List (List ℤ × List Share) → Except PyErr (Option Share)
  | [], _ => .ok none
  | pr :: rest, pool =>
      match poolLookup pool pr with
      | none => .error .keyError
      | some group =>
          match sharesXs group with
          | .error e => .error e
          | .ok xs =>
              match lagrange_interpolate 0 xs (group.map Share.value) p with
              | .error e => .error e
              | .ok mv =>
                  if pr = common then .ok (some ⟨mv, pr⟩)
                  else
                    match poolAppendVal pool pr.dropLast ⟨mv, pr⟩ with
                    | .error e => .error e
                    | .ok pool2 => mergeLoop p common rest pool2

/-- Model of Shamir._combine_shares (src/shamir/shamir.py lines
188-226): compute the common prefix; return the first share whose path
equals it, if any; otherwise build the prefix pool, sort its keys by
length descending, and run the merge loop. -/
def combine_shares (p : ℤ) (shares : List Share) : Except PyErr (Option Share) :=
  match commonPrefix shares with
  | .error e => .error e
  | .ok common =>
      match shares.find? (fun sh => sh.path == common) with
      | some sh => .ok (some sh)
      | none =>
          match buildPool common.length shares [] with
          | .error e => .error e
          | .ok pool => mergeLoop p common (sortByLenDesc (pool.map Prod.fst)) pool

/-- Model of Shamir.recover_secret (src/shamir/shamir.py lines
181-186). -/
def recover_secret (p : ℤ) (shares : List Share) : Except PyErr (Option Share) :=
  combine_shares p shares

/-- The active-share grouping of Shamir.extend_pool
(src/shamir/shamir.py lines 157-164): group the shares whose paths
properly extend the target parent prefix by their head (the prefix plus
one element), keys in first-seen order as for a Python dict. -/
def activeUpsert : List (List ℤ × List Share) → List ℤ → Share →
    List (List ℤ × List Share)
  | [], k, sh => [(k, [sh])]
  | e :: rest, k, sh =>
      if e.1 = k then (e.1, e.2 ++ [sh]) :: rest
      else e :: activeUpsert rest k sh

def buildActive (pfx : List ℤ) : List Share → List (List ℤ × List Share) →
    List (List ℤ × List Share)
  | [], acc => acc
  | sh :: rest, acc =>
      if sh.path.length > pfx.length ∧ sh.path.take pfx.length = pfx then
        buildActive pfx rest (activeUpsert acc (sh.path.take (pfx.length + 1)) sh)
      else
        buildActive pfx rest acc

/-- The peer collection loop of Shamir.extend_pool
(src/shamir/shamir.py lines 166-168): combine each active group into a
single representative share.  A combine result of None would make the
later attribute access peer.x() fail; that outcome is modelled as
typeError and is unreachable for non-empty groups. -/
def peersOf (p : ℤ) : List (List ℤ × List Share) → Except PyErr (List Share)
  | [] => .ok []
  | e :: rest =>
      match combine_shares p e.2 with
      | .error er => .error er
      | .ok none => .error .typeError
      | .ok (some sh) =>
          match peersOf p rest with
          | .error er => .error er
          | .ok others => .ok (sh :: others)

/-- The body of Shamir.extend_pool after the target has been split into
a parent prefix and a new index (src/shamir/shamir.py lines 151-179). -/
def extendGo (p : ℤ) (pfx : List ℤ) (x : ℤ) (shares : List Share) :
    Except PyErr (Option Share) :=
  if x % p = 0 ∨ ∃ n ∈ pfx, n % p = 0 then
    .error (.valueError "x-value of 0 is reserved")
  else if shares = [] then
    .error (.valueError "must specify at least one share")
  else
    match peersOf p (buildActive pfx shares []) with
    | .error e => .error e
    | .ok peers =>
        if peers = [] then .error (.valueError "specified prefix has no peers")
        else
          match sharesXs peers with
          | .error e => .error e
          | .ok xs =>
              match lagrange_interpolate x xs (peers.map Share.value) p with
              | .error e => .error e
              | .ok nv => .ok (some ⟨nv, pfx ++ [x]⟩)

/-- Model of Shamir.extend_pool (src/shamir/shamir.py lines 133-179).
The target is an int (a new sibling of the root shares) or a tuple of
ints; the int-or-tuple typing is captured by the sum type.  For the
empty tuple the source hits a bare return before the raise statement on
the next line (dead code), so the call returns None without an error. -/
def extend_pool (p : ℤ) (val : ℤ ⊕ List ℤ) (shares : List Share) :
    Except PyErr (Option Share) :=
  match val with
  | .inl x0 => extendGo p [] x0 shares
  | .inr [] => .ok none
  | .inr (a :: t) =>
      extendGo p ((a :: t).dropLast) ((a :: t).getLast (List.cons_ne_nil a t)) shares

/-- Proof-side definition: the polynomial over ZMod p whose coefficient
list (constant term first) is the integer list cs; this is the
mathematical polynomial that the Shamir code works with through
eval_poly_mod. -/
noncomputable def polyOfCoeffs (p : ℕ) (cs : List ℤ) : Polynomial (ZMod p) :=
  ∑ i ∈ Finset.range cs.length, Polynomial.C ((cs.getD i 0 : ℤ) : ZMod p) * Polynomial.X ^ i

/- ------------------------------------------------------------------ -/
/- Basic facts about eval_poly_mod.                                    -/
/- ------------------------------------------------------------------ -/

lemma eval_poly_mod_eq_foldr (poly_coeffs : List ℤ) (x modulus : ℤ) :
    eval_poly_mod poly_coeffs x modulus
      = poly_coeffs.foldr (fun coeff accum => (accum * x + coeff) % modulus) 0 := by
  unfold eval_poly_mod
  rw [List.foldl_reverse]

lemma horner_foldr_eq_sum (x m : ℤ) (hm : 0 < m) :
    ∀ coeffs : List ℤ,
      coeffs.foldr (fun coeff accum => (accum * x + coeff) % m) 0
        = (∑ i ∈ Finset.range coeffs.length, coeffs.getD i 0 * x ^ i) % m
  | [] => by simp
  | c :: cs => by
      have ih := horner_foldr_eq_sum x m hm cs
      have hsum : (∑ i ∈ Finset.range (c :: cs).length, (c :: cs).getD i 0 * x ^ i)
          = (∑ i ∈ Finset.range cs.length, cs.getD i 0 * x ^ i) * x + c := by
        rw [List.length_cons, Finset.sum_range_succ']
        simp only [List.getD_cons_succ, List.getD_cons_zero, pow_zero, mul_one,
          Finset.sum_mul]
        ring_nf
        congr 1
        refine Finset.sum_congr rfl (fun i _ => ?_)
        ring
      rw [List.foldr_cons, ih, hsum]
      have hmm : (∑ i ∈ Finset.range cs.length, cs.getD i 0 * x ^ i) % m
          ≡ (∑ i ∈ Finset.range cs.length, cs.getD i 0 * x ^ i) [ZMOD m] :=
        Int.emod_emod_of_dvd _ dvd_rfl
      exact (hmm.mul_right x).add_right c

/-- Internal core of the eval_poly_mod characterisation; the claim
theorem eval_poly_mod_spec below restates it. -/
lemma eval_poly_mod_props (coeffs : List ℤ) (x m : ℤ) (hm : 0 < m) :
    eval_poly_mod coeffs x m
        = (∑ i ∈ Finset.range coeffs.length, coeffs.getD i 0 * x ^ i) % m
      ∧ 0 ≤ eval_poly_mod coeffs x m
      ∧ eval_poly_mod coeffs x m < m
      ∧ eval_poly_mod [] x m = 0
      ∧ eval_poly_mod [2, 5, 3] 0 11 = 2
      ∧ eval_poly_mod [2, 5, 3] 1 11 = 10
      ∧ eval_poly_mod [2, 5, 3] 5 11 = 3
      ∧ eval_poly_mod [2, 5, 3] (-10) 11 = 10
      ∧ eval_poly_mod [2, 5, 3] 11 11 = 2 := by
  have hform := (eval_poly_mod_eq_foldr coeffs x m).trans (horner_foldr_eq_sum x m hm coeffs)
  refine ⟨hform, ?_, ?_, by rfl, by decide, by decide, by decide, by decide, by decide⟩
  · rw [hform]; exact Int.emod_nonneg _ (ne_of_gt hm)
  · rw [hform]; exact Int.emod_lt_of_pos _ hm

/-- C6: eval_poly_mod computes the polynomial sum mod p, the result is
always canonical in [0, p) for positive modulus, the empty coefficient
list yields 0, and for coeffs [2, 5, 3] with p = 11 evaluation at
0, 1, 5, -10, 11 yields 2, 10, 3, 10, 2 respectively.  The function is a
total function of its inputs (no error conditions). -/
theorem eval_poly_mod_spec (coeffs : List ℤ) (x m : ℤ) (hm : 0 < m) :
    eval_poly_mod coeffs x m
        = (∑ i ∈ Finset.range coeffs.length, coeffs.getD i 0 * x ^ i) % m
      ∧ 0 ≤ eval_poly_mod coeffs x m
      ∧ eval_poly_mod coeffs x m < m
      ∧ eval_poly_mod [] x m = 0
      ∧ eval_poly_mod [2, 5, 3] 0 11 = 2
      ∧ eval_poly_mod [2, 5, 3] 1 11 = 10
      ∧ eval_poly_mod [2, 5, 3] 5 11 = 3
      ∧ eval_poly_mod [2, 5, 3] (-10) 11 = 10
      ∧ eval_poly_mod [2, 5, 3] 11 11 = 2 :=
  eval_poly_mod_props coeffs x m hm

/-- Closed-form witness for eval_poly_mod_spec at a concrete input. -/
theorem eval_poly_mod_spec_witness :
    (0 : ℤ) < 11 ∧ eval_poly_mod [2, 5, 3] 0 11 = 2 :=
  ⟨by decide, (eval_poly_mod_spec [2, 5, 3] 0 11 (by decide)).2.2.2.2.1⟩

/- ------------------------------------------------------------------ -/
/- C7: the duplicate-point guard.                                      -/
/- ------------------------------------------------------------------ -/

lemma lagrangeTermLoop_ne_dup_error (x cur modulus term : ℤ) (others : List ℤ) :
    lagrangeTermLoop x cur modulus term others
      ≠ .error (.valueError "points must be distinct") := by
  induction others generalizing term with
  | nil => simp [lagrangeTermLoop]
  | cons o os ih =>
      simp only [lagrangeTermLoop, powNegOne]
      by_cases h : Int.gcd (cur - o) modulus = 1
      · simp only [h, if_pos]
        exact ih _
      · simp [h]

lemma lagrangeSumLoop_ne_dup_error (x modulus : ℤ) (pre post ys : List ℤ) :
    lagrangeSumLoop x modulus pre post ys
      ≠ .error (.valueError "points must be distinct") := by
  induction post generalizing pre ys with
  | nil => simp [lagrangeSumLoop]
  | cons cur rest ih =>
      match ys with
      | [] => simp [lagrangeSumLoop]
      | y :: ys2 =>
          simp only [lagrangeSumLoop]
          cases hterm : lagrangeTermLoop x cur modulus y (pre ++ rest) with
          | error e =>
              simp only [hterm]
              intro hcontra
              exact lagrangeTermLoop_ne_dup_error x cur modulus y (pre ++ rest)
                (hterm.trans hcontra)
          | ok t =>
              simp only [hterm]
              cases hrest : lagrangeSumLoop x modulus (pre ++ [cur]) rest ys2 with
              | error e =>
                  simp only [hrest]
                  intro hcontra
                  exact ih (pre ++ [cur]) ys2 (hrest.trans hcontra)
              | ok r => simp [hrest]

lemma dedup_length_eq_iff_nodup {l : List ℤ} :
    l.dedup.length = l.length ↔ l.Nodup := by
  constructor
  · intro h
    have := (List.dedup_sublist l).eq_of_length h
    rw [← this]
    exact List.nodup_dedup l
  · intro h
    rw [List.dedup_eq_self.mpr h]

/-- C7: lagrange_interpolate raises the duplicate-points input error
exactly when the x-coordinate list contains two equal values, regardless
of the y-values; with pairwise distinct x-coordinates that error is never
raised. -/
theorem lagrange_interpolate_dup_error_iff (x : ℤ) (x_s y_s : List ℤ) (m : ℤ) :
    lagrange_interpolate x x_s y_s m = .error (.valueError "points must be distinct")
      ↔ ¬ x_s.Nodup := by
  unfold lagrange_interpolate
  by_cases h : x_s.dedup.length = x_s.length
  · rw [if_neg (by simpa using h)]
    constructor
    · intro hcontra
      exfalso
      cases hsum : lagrangeSumLoop x m [] x_s y_s with
      | error e =>
          rw [hsum] at hcontra
          exact lagrangeSumLoop_ne_dup_error x m [] x_s y_s (by rw [hsum]; exact_mod_cast hcontra)
      | ok r =>
          rw [hsum] at hcontra
          simp at hcontra
    · intro hnodup
      exact absurd (dedup_length_eq_iff_nodup.mp h) hnodup
  · rw [if_pos (by simpa using h)]
    simp only [true_iff]
    intro hnodup
    exact h (dedup_length_eq_iff_nodup.mpr hnodup)

/- ------------------------------------------------------------------ -/
/- Correctness of lagrange_interpolate over ZMod p (p prime).          -/
/- ------------------------------------------------------------------ -/

lemma powNegOne_ok (p : ℕ) (hp : p.Prime) (a : ℤ) (ha : ¬ ((p : ℤ) ∣ a)) :
    ∃ v, powNegOne a (p : ℤ) = .ok v ∧ ((v : ZMod p) = ((a : ZMod p))⁻¹) := by
  haveI : Fact p.Prime := ⟨hp⟩
  have hdvd : ¬ p ∣ a.natAbs := fun h => ha (Int.natCast_dvd.mpr h)
  have hco : Nat.Coprime p a.natAbs := (Nat.Prime.coprime_iff_not_dvd hp).mpr hdvd
  have hgcd : Int.gcd a (p : ℤ) = 1 := by
    show Nat.gcd a.natAbs ((p : ℤ)).natAbs = 1
    rw [Int.natAbs_ofNat]
    exact Nat.coprime_comm.mp hco
  refine ⟨Int.gcdA a (p : ℤ) % (p : ℤ), ?_, ?_⟩
  · unfold powNegOne
    rw [if_pos hgcd]
  · have hbez := Int.gcd_eq_gcd_ab a (p : ℤ)
    rw [hgcd] at hbez
    have hcast := congrArg (fun z : ℤ => (z : ZMod p)) hbez
    push_cast at hcast
    rw [ZMod.natCast_self] at hcast
    have hmul : (a : ZMod p) * ((Int.gcdA a (p : ℤ) : ℤ) : ZMod p) = 1 := by
      rw [hcast]; ring
    rw [ZMod.intCast_mod]
    exact (inv_eq_of_mul_eq_one_right hmul).symm

lemma lagrangeTermLoop_ok (p : ℕ) (hp : p.Prime) (x cur : ℤ) :
    ∀ (others : List ℤ) (term : ℤ),
      (∀ o ∈ others, ¬ ((p : ℤ) ∣ (cur - o))) →
      ∃ t, lagrangeTermLoop x cur (p : ℤ) term others = .ok t ∧
        ((t : ZMod p) = (term : ZMod p) * nodeProd p x cur others)
  | [], term, _ => ⟨term, rfl, by simp [nodeProd]⟩
  | o :: others, term, h => by
      haveI : Fact p.Prime := ⟨hp⟩
      obtain ⟨v, hv, hvcast⟩ := powNegOne_ok p hp (cur - o) (h o (by simp))
      obtain ⟨t, ht, htcast⟩ := lagrangeTermLoop_ok p hp x cur others
        ((term * (x - o) * v) % (p : ℤ)) (fun o2 ho2 => h o2 (by simp [ho2]))
      refine ⟨t, ?_, ?_⟩
      · simp only [lagrangeTermLoop, hv]
        exact ht
      · rw [htcast, ZMod.intCast_mod, Int.cast_mul, Int.cast_mul, hvcast]
        simp only [nodeProd, List.map_cons, List.prod_cons]
        ring

lemma lagrangeSumLoop_ok (p : ℕ) (hp : p.Prime) (x : ℤ) :
    ∀ (post pre ys : List ℤ),
      ys.length = post.length →
      ((pre ++ post).Pairwise (fun a b => ¬ ((p : ℤ) ∣ (a - b)))) →
      ∃ s, lagrangeSumLoop x (p : ℤ) pre post ys = .ok s ∧
        ((s : ZMod p) = ∑ i ∈ Finset.range post.length,
          ((ys.getD i 0 : ℤ) : ZMod p)
            * nodeProd p x (post.getD i 0) (pre ++ post.eraseIdx i))
  | [], pre, ys, hlen, hpw => ⟨0, rfl, by simp⟩
  | cur :: rest, pre, ys, hlen, hpw => by
      cases ys with
      | nil => simp at hlen
      | cons y ys2 =>
          rw [List.pairwise_append] at hpw
          obtain ⟨hpre, hcons, hcross⟩ := hpw
          rw [List.pairwise_cons] at hcons
          obtain ⟨hcur, hrest⟩ := hcons
          have hothers : ∀ o ∈ pre ++ rest, ¬ ((p : ℤ) ∣ (cur - o)) := by
            intro o ho
            rcases List.mem_append.mp ho with hmem | hmem
            · intro hd
              exact hcross o hmem cur (List.mem_cons_self cur rest)
                (by rw [show o - cur = -(cur - o) by ring]; exact dvd_neg.mpr hd)
            · exact hcur o hmem
          obtain ⟨t, ht, htcast⟩ := lagrangeTermLoop_ok p hp x cur (pre ++ rest) y hothers
          have hpw2 : ((pre ++ [cur]) ++ rest).Pairwise
              (fun a b => ¬ ((p : ℤ) ∣ (a - b))) := by
            rw [List.append_assoc, List.singleton_append, List.pairwise_append]
            refine ⟨hpre, List.pairwise_cons.mpr ⟨hcur, hrest⟩, hcross⟩
          obtain ⟨s2, hs2, hs2cast⟩ := lagrangeSumLoop_ok p hp x rest (pre ++ [cur]) ys2
            (by simpa using hlen) hpw2
          refine ⟨t + s2, ?_, ?_⟩
          · simp only [lagrangeSumLoop, ht, hs2]
          · rw [Int.cast_add, htcast, hs2cast, List.length_cons, Finset.sum_range_succ']
            have hcongr : ∀ i ∈ Finset.range rest.length,
                ((ys2.getD i 0 : ℤ) : ZMod p)
                    * nodeProd p x (rest.getD i 0) ((pre ++ [cur]) ++ rest.eraseIdx i)
                  = (((y :: ys2).getD (i + 1) 0 : ℤ) : ZMod p)
                    * nodeProd p x ((cur :: rest).getD (i + 1) 0)
                        (pre ++ (cur :: rest).eraseIdx (i + 1)) := by
              intro i _
              simp [List.getD_cons_succ, List.eraseIdx_cons_succ, List.append_assoc]
            rw [Finset.sum_congr rfl hcongr]
            simp only [List.getD_cons_zero, List.eraseIdx_cons_zero]
            exact add_comm _ _

lemma pairwise_ne_of_dvd_pairwise {p : ℕ} {xs : List ℤ}
    (hdist : xs.Pairwise (fun a b => ¬ ((p : ℤ) ∣ (a - b)))) : xs.Nodup :=
  hdist.imp (fun h heq => h (by rw [heq, sub_self]; exact dvd_zero _))

lemma lagrange_interpolate_ok (p : ℕ) (hp : p.Prime) (x : ℤ) (xs ys : List ℤ)
    (hlen : ys.length = xs.length)
    (hdist : xs.Pairwise (fun a b => ¬ ((p : ℤ) ∣ (a - b)))) :
    ∃ r, lagrange_interpolate x xs ys (p : ℤ) = .ok r ∧ 0 ≤ r ∧ r < (p : ℤ) ∧
      ((r : ZMod p) = ∑ i ∈ Finset.range xs.length,
        ((ys.getD i 0 : ℤ) : ZMod p) * nodeProd p x (xs.getD i 0) (xs.eraseIdx i)) := by
  have hnodup : xs.Nodup := pairwise_ne_of_dvd_pairwise hdist
  have hppos : (0 : ℤ) < (p : ℤ) := by exact_mod_cast hp.pos
  obtain ⟨s, hs, hscast⟩ := lagrangeSumLoop_ok p hp x xs [] ys hlen (by simpa using hdist)
  refine ⟨s % (p : ℤ), ?_, Int.emod_nonneg s (ne_of_gt hppos), Int.emod_lt_of_pos s hppos, ?_⟩
  · unfold lagrange_interpolate
    rw [if_neg (by simp [dedup_length_eq_iff_nodup.mpr hnodup]), hs]
  · rw [ZMod.intCast_mod, hscast]
    refine Finset.sum_congr rfl (fun i _ => ?_)
    simp

lemma pairwise_dvd_getD {p : ℕ} {xs : List ℤ}
    (hdist : xs.Pairwise (fun a b => ¬ ((p : ℤ) ∣ (a - b)))) :
    ∀ i j, i < xs.length → j < xs.length → i ≠ j →
      ¬ ((p : ℤ) ∣ (xs.getD i 0 - xs.getD j 0)) := by
  intro i j hi hj hne
  rw [List.getD_eq_getElem _ _ hi, List.getD_eq_getElem _ _ hj]
  rcases Nat.lt_or_ge i j with hij | hij
  · exact (List.pairwise_iff_getElem.mp hdist) i j hi hj hij
  · have hj2 : j < i := by omega
    have hr := (List.pairwise_iff_getElem.mp hdist) j i hj hi hj2
    intro hd
    exact hr (by rw [show xs[j] - xs[i] = -(xs[i] - xs[j]) by ring]; exact dvd_neg.mpr hd)

lemma listProd_map_getD {M : Type} [CommMonoid M] (g : ℤ → M) :
    ∀ l : List ℤ, (l.map g).prod = ∏ j ∈ Finset.range l.length, g (l.getD j 0)
  | [] => by simp
  | a :: t => by
      rw [List.map_cons, List.prod_cons, listProd_map_getD g t, List.length_cons,
        Finset.prod_range_succ']
      simp only [List.getD_cons_succ, List.getD_cons_zero]
      exact mul_comm _ _

lemma listProd_map_eraseIdx {M : Type} [CommMonoid M] (g : ℤ → M) :
    ∀ (l : List ℤ) (i : ℕ), i < l.length →
      ((l.eraseIdx i).map g).prod
        = ∏ j ∈ (Finset.range l.length).erase i, g (l.getD j 0)
  | [], i, hi => by simp at hi
  | a :: t, 0, _ => by
      rw [List.eraseIdx_cons_zero, listProd_map_getD g t]
      have hset : (Finset.range (a :: t).length).erase 0
          = Finset.image (fun m => m + 1) (Finset.range t.length) := by
        ext j
        simp only [Finset.mem_erase, Finset.mem_range, Finset.mem_image, List.length_cons]
        constructor
        · rintro ⟨h0, hj⟩
          exact ⟨j - 1, by omega, by omega⟩
        · rintro ⟨m, hm, rfl⟩
          omega
      rw [hset, Finset.prod_image (fun a2 _ b2 _ h => by omega)]
      simp
  | a :: t, i + 1, hi => by
      rw [List.eraseIdx_cons_succ, List.map_cons, List.prod_cons,
        listProd_map_eraseIdx g t i (by simpa using hi)]
      have hset : (Finset.range (a :: t).length).erase (i + 1)
          = insert 0 (Finset.image (fun m => m + 1) ((Finset.range t.length).erase i)) := by
        ext j
        simp only [Finset.mem_erase, Finset.mem_range, Finset.mem_insert, Finset.mem_image,
          List.length_cons]
        constructor
        · rintro ⟨hne, hj⟩
          rcases Nat.eq_zero_or_pos j with h0 | hpos
          · exact Or.inl h0
          · exact Or.inr ⟨j - 1, ⟨by omega, by omega⟩, by omega⟩
        · rintro (rfl | ⟨m, ⟨hmne, hmlt⟩, rfl⟩)
          · exact ⟨by omega, by omega⟩
          · exact ⟨by omega, by omega⟩
      rw [hset, Finset.prod_insert (by simp), Finset.prod_image (fun a2 _ b2 _ h => by omega)]
      simp

lemma lagrange_sum_eq_eval (p : ℕ) (hp : p.Prime) (x : ℤ) (xs ys : List ℤ)
    (hdist : xs.Pairwise (fun a b => ¬ ((p : ℤ) ∣ (a - b))))
    (f : Polynomial (ZMod p)) (hdeg : f.degree < xs.length)
    (heval : ∀ i, i < xs.length →
      f.eval ((xs.getD i 0 : ℤ) : ZMod p) = ((ys.getD i 0 : ℤ) : ZMod p)) :
    (∑ i ∈ Finset.range xs.length,
        ((ys.getD i 0 : ℤ) : ZMod p) * nodeProd p x (xs.getD i 0) (xs.eraseIdx i))
      = f.eval ((x : ℤ) : ZMod p) := by
  haveI : Fact p.Prime := ⟨hp⟩
  set k := xs.length with hk
  set v : ℕ → ZMod p := fun j => ((xs.getD j 0 : ℤ) : ZMod p) with hv
  set r : ℕ → ZMod p := fun j => ((ys.getD j 0 : ℤ) : ZMod p) with hr
  have hinj : Set.InjOn v ↑(Finset.range k) := by
    intro i hi j hj hvij
    rw [Finset.mem_coe, Finset.mem_range] at hi hj
    by_contra hne
    apply pairwise_dvd_getD hdist i j hi hj hne
    have hmod := (ZMod.intCast_eq_intCast_iff _ _ _).mp hvij
    rw [show xs.getD i 0 - xs.getD j 0 = -(xs.getD j 0 - xs.getD i 0) by ring]
    exact dvd_neg.mpr (Int.ModEq.dvd hmod)
  have hdeg2 : f.degree < (Finset.range k).card := by
    rwa [Finset.card_range]
  have hfeq : f = Lagrange.interpolate (Finset.range k) v r :=
    Lagrange.eq_interpolate_of_eval_eq r hinj hdeg2
      (fun i hi => heval i (Finset.mem_range.mp hi))
  conv_rhs => rw [hfeq]
  rw [Lagrange.interpolate_apply, Polynomial.eval_finset_sum]
  refine Finset.sum_congr rfl (fun i hi => ?_)
  rw [Polynomial.eval_mul, Polynomial.eval_C]
  have hi2 : i < k := Finset.mem_range.mp hi
  congr 1
  rw [Lagrange.basis, Polynomial.eval_prod, nodeProd,
    listProd_map_eraseIdx _ xs i hi2]
  refine Finset.prod_congr rfl (fun j hj => ?_)
  rw [Finset.mem_erase, Finset.mem_range] at hj
  rw [Lagrange.basisDivisor, Polynomial.eval_mul, Polynomial.eval_C,
    Polynomial.eval_sub, Polynomial.eval_X, Polynomial.eval_C]
  push_cast
  ring

/-- Internal core of the interpolation correctness statement; the claim
theorem lagrange_interpolate_correct below restates it. -/
lemma lagrange_interpolate_core (p : ℕ) (hp : p.Prime) (x : ℤ) (xs ys : List ℤ)
    (hlen : ys.length = xs.length)
    (hdist : xs.Pairwise (fun a b => ¬ ((p : ℤ) ∣ (a - b))))
    (f : Polynomial (ZMod p)) (hdeg : f.degree < xs.length)
    (heval : ∀ i, i < xs.length →
      f.eval ((xs.getD i 0 : ℤ) : ZMod p) = ((ys.getD i 0 : ℤ) : ZMod p)) :
    ∃ r, lagrange_interpolate x xs ys (p : ℤ) = .ok r ∧ 0 ≤ r ∧ r < (p : ℤ) ∧
      ((r : ZMod p) = f.eval ((x : ℤ) : ZMod p)) := by
  obtain ⟨r, hok, h0, hlt, hcast⟩ := lagrange_interpolate_ok p hp x xs ys hlen hdist
  exact ⟨r, hok, h0, hlt, by rw [hcast]; exact lagrange_sum_eq_eval p hp x xs ys hdist f hdeg heval⟩

/-- C5 (amended): for p prime and points whose x-coordinates are pairwise
distinct modulo p, lagrange_interpolate returns (without error) the value
at x, canonical in [0, p), of the unique polynomial of degree < k over
Z/pZ passing through the points: for every polynomial f over ZMod p with
degree < k agreeing with the points, the returned value is congruent to
f evaluated at x. -/
theorem lagrange_interpolate_correct (p : ℕ) (hp : p.Prime) (x : ℤ) (xs ys : List ℤ)
    (hlen : ys.length = xs.length)
    (hdist : xs.Pairwise (fun a b => ¬ ((p : ℤ) ∣ (a - b))))
    (f : Polynomial (ZMod p)) (hdeg : f.degree < xs.length)
    (heval : ∀ i, i < xs.length →
      f.eval ((xs.getD i 0 : ℤ) : ZMod p) = ((ys.getD i 0 : ℤ) : ZMod p)) :
    ∃ r, lagrange_interpolate x xs ys (p : ℤ) = .ok r ∧ 0 ≤ r ∧ r < (p : ℤ) ∧
      ((r : ZMod p) = f.eval ((x : ℤ) : ZMod p)) :=
  lagrange_interpolate_core p hp x xs ys hlen hdist f hdeg heval

/-- Concrete witness for lagrange_interpolate_correct: three points of
the polynomial f(x) = 2 + 5x + 3x^2 over ZMod 11, interpolated at 0. -/
theorem lagrange_interpolate_correct_witness :
    ∃ r, lagrange_interpolate 0 [1, 4, 6] [10, 4, 8] ((11 : ℕ) : ℤ) = .ok r ∧
      0 ≤ r ∧ r < ((11 : ℕ) : ℤ) ∧
      ((r : ZMod 11) = (Polynomial.C 2 + Polynomial.C 5 * Polynomial.X
        + Polynomial.C 3 * Polynomial.X ^ 2 : Polynomial (ZMod 11)).eval ((0 : ℤ) : ZMod 11)) :=
  lagrange_interpolate_correct 11 (by norm_num) 0 [1, 4, 6] [10, 4, 8] rfl
    (by norm_num [List.pairwise_cons])
    _
    (by
      have h2 : (Polynomial.C 2 + Polynomial.C 5 * Polynomial.X
          + Polynomial.C 3 * Polynomial.X ^ 2 : Polynomial (ZMod 11)).degree ≤ 2 := by
        compute_degree
      exact lt_of_le_of_lt h2 (by norm_num))
    (by
      intro i hi
      have hi3 : i < 3 := by simpa using hi
      interval_cases i <;>
        simp only [List.getD_cons_zero, List.getD_cons_succ] <;>
        simp only [Polynomial.eval_add, Polynomial.eval_mul, Polynomial.eval_pow,
          Polynomial.eval_C, Polynomial.eval_X] <;>
        push_cast <;> decide)

lemma commonPrefix2_prefix_left (p1 p2 : List ℤ) : commonPrefix2 p1 p2 <+: p1 :=
  List.take_prefix _ _

lemma commonPrefix2_prefix_right : ∀ p1 p2 : List ℤ, commonPrefix2 p1 p2 <+: p2
  | [], _ => by simp [commonPrefix2, commonPrefixLength]
  | _ :: _, [] => by simp [commonPrefix2, commonPrefixLength]
  | a :: as2, b :: bs => by
      by_cases hab : a = b
      · subst hab
        simp only [commonPrefix2, commonPrefixLength, ne_eq, not_true_eq_false, if_neg,
          not_false_eq_true, List.take_succ_cons, if_false]
        rw [List.cons_prefix_cons]
        exact ⟨rfl, commonPrefix2_prefix_right as2 bs⟩
      · simp [commonPrefix2, commonPrefixLength, hab]

lemma commonPrefixLength_longest : ∀ (q p1 p2 : List ℤ), q <+: p1 → q <+: p2 →
    q.length ≤ commonPrefixLength p1 p2
  | [], _, _, _, _ => Nat.zero_le _
  | c :: cs, p1, p2, h1, h2 => by
      cases p1 with
      | nil => simp at h1
      | cons a tl1 =>
          cases p2 with
          | nil => simp at h2
          | cons b tl2 =>
              rw [List.cons_prefix_cons] at h1 h2
              obtain ⟨rfl, h1t⟩ := h1
              obtain ⟨heq, h2t⟩ := h2
              subst heq
              simp only [commonPrefixLength, ne_eq, not_true_eq_false, if_false,
                List.length_cons]
              exact Nat.succ_le_succ (commonPrefixLength_longest cs tl1 tl2 h1t h2t)

lemma commonPrefix_foldl_spec :
    ∀ (rest : List Share) (init : List ℤ),
      (rest.foldl (fun pr s2 => commonPrefix2 pr s2.path) init) <+: init ∧
      (∀ sh ∈ rest, (rest.foldl (fun pr s2 => commonPrefix2 pr s2.path) init) <+: sh.path) ∧
      (∀ q : List ℤ, q <+: init → (∀ sh ∈ rest, q <+: sh.path) →
        q.length ≤ (rest.foldl (fun pr s2 => commonPrefix2 pr s2.path) init).length)
  | [], init => ⟨List.prefix_rfl, by simp, fun q hq _ => hq.length_le⟩
  | s :: rest, init => by
      obtain ⟨hpr, hmem, hlong⟩ := commonPrefix_foldl_spec rest (commonPrefix2 init s.path)
      simp only [List.foldl_cons]
      refine ⟨hpr.trans (commonPrefix2_prefix_left init s.path), ?_, ?_⟩
      · intro sh hsh
        rcases List.mem_cons.mp hsh with rfl | hsh2
        · exact hpr.trans (commonPrefix2_prefix_right init sh.path)
        · exact hmem sh hsh2
      · intro q hq hqmem
        have hqs : q <+: s.path := hqmem s (List.mem_cons_self s rest)
        have hqlen : q.length ≤ commonPrefixLength init s.path :=
          commonPrefixLength_longest q init s.path hq hqs
        have hq2 : q <+: commonPrefix2 init s.path := by
          have heq : (commonPrefix2 init s.path).take q.length = q := by
            rw [commonPrefix2, List.take_take, min_eq_left hqlen]
            exact (List.prefix_iff_eq_take.mp hq).symm
          rw [← heq]
          exact List.take_prefix _ _
        exact hlong q hq2 (fun sh hsh => hqmem sh (List.mem_cons_of_mem s hsh))

/-- C8: commonPrefix of a non-empty collection returns the longest path
that is a leading prefix of every share path (in particular it returns
(1,) for the paths (1,2,3), (1,2,4), (1,3), the own path for a
singleton, and the empty path when first elements differ), and raises an
input error on an empty collection. -/
theorem commonPrefix_correct (shares : List Share) :
    (shares ≠ [] → ∃ pr, commonPrefix shares = .ok pr ∧
        (∀ sh ∈ shares, pr <+: sh.path) ∧
        (∀ q : List ℤ, (∀ sh ∈ shares, q <+: sh.path) → q.length ≤ pr.length))
    ∧ (∀ sh : Share, commonPrefix [sh] = .ok sh.path)
    ∧ commonPrefix [⟨5, [1, 2, 3]⟩, ⟨6, [1, 2, 4]⟩, ⟨7, [1, 3]⟩] = .ok [1]
    ∧ (∀ (sh1 sh2 : Share) (a b : ℤ) (t1 t2 : List ℤ),
        sh1.path = a :: t1 → sh2.path = b :: t2 → a ≠ b →
          commonPrefix [sh1, sh2] = .ok [])
    ∧ commonPrefix [] = .error (.valueError "list of shares is empty") := by
  refine ⟨?_, fun sh => rfl, by rfl, ?_, rfl⟩
  case refine_2 =>
    intro sh1 sh2 a b t1 t2 h1 h2 hab
    simp [commonPrefix, commonPrefix2, commonPrefixLength, h1, h2, hab]
  intro hne
  match shares, hne with
  | sh :: rest, _ =>
      obtain ⟨hpr, hmem, hlong⟩ := commonPrefix_foldl_spec rest sh.path
      refine ⟨_, rfl, ?_, ?_⟩
      · intro sh2 hsh2
        rcases List.mem_cons.mp hsh2 with rfl | h2
        · exact hpr
        · exact hmem sh2 h2
      · intro q hq
        exact hlong q (hq sh (List.mem_cons_self sh rest))
          (fun sh2 hsh2 => hq sh2 (List.mem_cons_of_mem sh hsh2))

/-- Closed witness for commonPrefix_correct at the concrete three-share
collection from the claim. -/
theorem commonPrefix_correct_witness :
    ∃ pr, commonPrefix [⟨5, [1, 2, 3]⟩, ⟨6, [1, 2, 4]⟩, ⟨7, [1, 3]⟩] = .ok pr ∧
      (∀ sh ∈ ([⟨5, [1, 2, 3]⟩, ⟨6, [1, 2, 4]⟩, ⟨7, [1, 3]⟩] : List Share), pr <+: sh.path) ∧
      (∀ q : List ℤ,
        (∀ sh ∈ ([⟨5, [1, 2, 3]⟩, ⟨6, [1, 2, 4]⟩, ⟨7, [1, 3]⟩] : List Share), q <+: sh.path) →
          q.length ≤ pr.length) :=
  (commonPrefix_correct [⟨5, [1, 2, 3]⟩, ⟨6, [1, 2, 4]⟩, ⟨7, [1, 3]⟩]).1 (by simp)

/-- Counterexample input for C5: the x-coordinates 0 and 11 are distinct
as integers but congruent mod p = 11, so the duplicate guard passes and
the interpolation then fails on a non-invertible difference; no value is
returned, contradicting the claim as stated for pairwise distinct integer
x-coordinates. -/
theorem lagrange_interpolate_distinct_int_cex :
    (0 : ℤ) ≠ 11 ∧
    lagrange_interpolate 0 [0, 11] [0, 0] 11
      = .error (.valueError "base is not invertible") := by
  constructor
  · decide
  · rfl

/- ------------------------------------------------------------------ -/
/- C10, C2, C4: direct evaluations of the modelled engine.             -/
/- ------------------------------------------------------------------ -/

/-- C10: extend_pool applied to the empty tuple target returns None
without raising any error and without producing a share: the raise
statement for the empty target follows a bare return and is dead code,
so the malformed target is silently accepted. -/
theorem extend_pool_empty_tuple (p : ℤ) (shares : List Share) :
    extend_pool p (.inr []) shares = .ok none := rfl

/-- C2 (code bug): generate_pool applied to the 2-level specification of
the claim (root threshold 2 with three direct shares: two plain ones and
one split by a sub-specification with threshold 2 and 2 sub-shares)
raises TypeError instead of succeeding.  ShamirSpec.num_shares has no
return statement in its tuple branch and returns None, so validate
evaluates None < threshold and the call dies before generating any
share. -/
theorem generate_pool_nested_spec_typeerror (p : ℤ) (secret : Share)
    (cs : List ℤ) (sampled : Option (List ℤ)) :
    generate_pool p secret
        (ShamirSpec.mk 2 (.entries (.consPlain 2
          (.consSplit 1 (ShamirSpec.mk 2 (.flat 2)) .nil)))) cs sampled
      = .error .typeError := rfl

/-- C4 (code bug): the nested specification with threshold 2 and a
tuple-valued shares field holding the single plain count 3 satisfies
every invariant of the claim (threshold at least 1, all multiplicities
at least 1, direct share count 3 at least the threshold 2), yet
validate raises TypeError instead of accepting it: num_shares returns
None for every tuple-valued shares field, and the source comparison
None < threshold is a Python TypeError. -/
theorem validate_valid_nested_spec_typeerror :
    validate (ShamirSpec.mk 2 (.entries (.consPlain 3 .nil))) = .error .typeError := rfl

/- ------------------------------------------------------------------ -/
/- C9: sibling index invariant of generate_pool.                       -/
/- ------------------------------------------------------------------ -/

/-- Counterexample for C9 as stated: with p = 3 and rand_indices = 3,
the sample [3] is a legitimate draw from range(1, 4) (one value, no
repetition, each value in [1, 3]), generate_pool succeeds, and the
returned share carries index 3, which is congruent to 0 mod p — the
successful call violates the non-zero sibling-index invariant. -/
theorem generate_pool_rand_index_zero_cex :
    generate_pool 3 ⟨0, []⟩ (ShamirSpec.mk 1 (.flat 1)) [] (some [3])
        = .ok [⟨0, [3]⟩]
      ∧ (3 : ℤ) % 3 = 0
      ∧ List.Nodup [(3 : ℤ)]
      ∧ (∀ v ∈ [(3 : ℤ)], 1 ≤ v ∧ v ≤ 3) :=
  ⟨rfl, by decide, by decide, by decide⟩

lemma bounded_distinct_mod (p : ℕ) (l : List ℤ) (hnd : l.Nodup)
    (hb : ∀ v ∈ l, 1 ≤ v ∧ v < (p : ℤ)) :
    l.Pairwise (fun a b => ¬ ((p : ℤ) ∣ (a - b))) ∧ ∀ v ∈ l, ¬ ((p : ℤ) ∣ v) := by
  constructor
  · refine List.Pairwise.imp_of_mem ?_ hnd
    intro a b ha hb2 hne hd
    obtain ⟨ha1, ha2⟩ := hb a ha
    obtain ⟨hb1, hb2b⟩ := hb b hb2
    have habs : |a - b| < (p : ℤ) := by rw [abs_sub_lt_iff]; omega
    have hpos : (0 : ℤ) < |a - b| := by rw [abs_pos]; omega
    have := Int.le_of_dvd hpos ((dvd_abs _ _).mpr hd)
    omega
  · intro v hv hd
    obtain ⟨h1, h2⟩ := hb v hv
    have := Int.le_of_dvd (by omega) hd
    omega

lemma seqIndices_nodup (n : ℤ) : (seqIndices n).Nodup := by
  refine List.Nodup.map ?_ (List.nodup_range _)
  intro a b hab
  have hab2 : (a : ℤ) + 1 = (b : ℤ) + 1 := hab
  omega

lemma seqIndices_mem (n : ℤ) : ∀ v ∈ seqIndices n, 1 ≤ v ∧ v ≤ n := by
  intro v hv
  rw [seqIndices, List.mem_map] at hv
  obtain ⟨j, hj, rfl⟩ := hv
  rw [List.mem_range] at hj
  omega

lemma map_shares_invariant (p : ℕ) (secret : Share) (coeffs : List ℤ)
    (indices : List ℤ) (hnd : indices.Nodup)
    (hbnd : ∀ v ∈ indices, 1 ≤ v ∧ v < (p : ℤ)) :
    (∀ sh ∈ indices.map (fun x =>
        (⟨eval_poly_mod coeffs x (p : ℤ), secret.path ++ [x]⟩ : Share)),
      sh.path.dropLast = secret.path)
    ∧ ((indices.map (fun x =>
        (⟨eval_poly_mod coeffs x (p : ℤ), secret.path ++ [x]⟩ : Share))).map
          (fun sh => sh.path.getLastD 0)).Pairwise
        (fun a b => ¬ ((p : ℤ) ∣ (a - b)))
    ∧ (∀ sh ∈ indices.map (fun x =>
        (⟨eval_poly_mod coeffs x (p : ℤ), secret.path ++ [x]⟩ : Share)),
      ¬ ((p : ℤ) ∣ sh.path.getLastD 0)) := by
  obtain ⟨hdistinct, hnonzero⟩ := bounded_distinct_mod p indices hnd hbnd
  refine ⟨?_, ?_, ?_⟩
  · intro sh hsh
    rw [List.mem_map] at hsh
    obtain ⟨x, _, rfl⟩ := hsh
    exact List.dropLast_concat
  · rw [List.map_map]
    have hmap : (indices.map
        ((fun sh : Share => sh.path.getLastD 0)
          ∘ (fun x => (⟨eval_poly_mod coeffs x (p : ℤ),
              secret.path ++ [x]⟩ : Share)))) = indices := by
      conv_rhs => rw [← List.map_id indices]
      refine List.map_congr_left (fun x _ => ?_)
      simp [Function.comp, List.getLastD_concat]
    rw [hmap]
    exact hdistinct
  · intro sh hsh
    rw [List.mem_map] at hsh
    obtain ⟨x, hx, rfl⟩ := hsh
    simpa [List.getLastD_concat] using hnonzero x hx

/-- C9 (amended): every successful generate_pool call returns shares
that are siblings directly below the secret (each path is the secret
path extended by one index), with indices pairwise distinct and
non-zero as field elements mod p — amended with the proviso that any
rand_indices sample consists of values in [1, p), i.e. rand_indices is
smaller than p; without that restriction the invariant fails, see
generate_pool_rand_index_zero_cex. -/
theorem generate_pool_sibling_invariant (p : ℕ) (secret : Share)
    (spec : ShamirSpec) (cs : List ℤ) (sampled : Option (List ℤ)) (shs : List Share)
    (hok : generate_pool (p : ℤ) secret spec cs sampled = .ok shs)
    (hsampled : ∀ l, sampled = some l → l.Nodup ∧ ∀ v ∈ l, 1 ≤ v ∧ v < (p : ℤ)) :
    (∀ sh ∈ shs, sh.path.dropLast = secret.path)
    ∧ (shs.map (fun sh => sh.path.getLastD 0)).Pairwise
        (fun a b => ¬ ((p : ℤ) ∣ (a - b)))
    ∧ (∀ sh ∈ shs, ¬ ((p : ℤ) ∣ sh.path.getLastD 0)) := by
  unfold generate_pool at hok
  cases hval : validate spec with
  | error e => rw [hval] at hok; exact Except.noConfusion hok
  | ok u =>
      simp only [hval] at hok
      unfold rec_generate_pool at hok
      cases hn : num_shares spec with
      | none => simp only [hn] at hok; exact Except.noConfusion hok
      | some n =>
          simp only [hn] at hok
          by_cases hnp : n ≥ (p : ℤ)
          · simp only [if_pos hnp] at hok
            exact Except.noConfusion hok
          · simp only [if_neg hnp] at hok
            cases sampled with
            | none =>
                simp only [Except.ok.injEq] at hok
                subst hok
                refine map_shares_invariant p secret _ (seqIndices n)
                  (seqIndices_nodup n) (fun v hv => ?_)
                obtain ⟨h1, h2⟩ := seqIndices_mem n v hv
                exact ⟨h1, by omega⟩
            | some l =>
                simp only [Except.ok.injEq] at hok
                subst hok
                exact map_shares_invariant p secret _ l (hsampled l rfl).1
                  (hsampled l rfl).2


/-- Closed witness for generate_pool_sibling_invariant: the flat pool
for p = 5, secret 2, threshold 2, 3 shares with coefficient draw [1]
(polynomial 2 + x) and sequential indices. -/
theorem generate_pool_sibling_invariant_witness :
    (∀ sh ∈ ([⟨3, [1]⟩, ⟨4, [2]⟩, ⟨0, [3]⟩] : List Share),
        sh.path.dropLast = (Share.mk 2 []).path)
    ∧ (([⟨3, [1]⟩, ⟨4, [2]⟩, ⟨0, [3]⟩] : List Share).map
        (fun sh => sh.path.getLastD 0)).Pairwise
        (fun a b => ¬ (((5 : ℕ) : ℤ) ∣ (a - b)))
    ∧ (∀ sh ∈ ([⟨3, [1]⟩, ⟨4, [2]⟩, ⟨0, [3]⟩] : List Share),
        ¬ (((5 : ℕ) : ℤ) ∣ sh.path.getLastD 0)) :=
  generate_pool_sibling_invariant 5 ⟨2, []⟩ (ShamirSpec.mk 2 (.flat 3)) [1] none
    [⟨3, [1]⟩, ⟨4, [2]⟩, ⟨0, [3]⟩] rfl (fun l h => nomatch h)

/- ------------------------------------------------------------------ -/
/- The Shamir polynomial of a coefficient list.                        -/
/- ------------------------------------------------------------------ -/

lemma polyOfCoeffs_degree_lt (p : ℕ) (cs : List ℤ) (m : ℕ)
    (hlen : cs.length ≤ m) (hm1 : 1 ≤ m) :
    (polyOfCoeffs p cs).degree < (m : WithBot ℕ) := by
  refine lt_of_le_of_lt (Polynomial.degree_sum_le _ _) ?_
  rw [Finset.sup_lt_iff (by exact WithBot.bot_lt_coe m)]
  intro i hi
  rw [Finset.mem_range] at hi
  refine lt_of_le_of_lt (Polynomial.degree_C_mul_X_pow_le _ _) ?_
  exact_mod_cast Nat.lt_of_lt_of_le hi hlen

lemma polyOfCoeffs_eval (p : ℕ) (cs : List ℤ) (t : ZMod p) :
    (polyOfCoeffs p cs).eval t
      = ∑ i ∈ Finset.range cs.length, ((cs.getD i 0 : ℤ) : ZMod p) * t ^ i := by
  rw [polyOfCoeffs, Polynomial.eval_finset_sum]
  refine Finset.sum_congr rfl (fun i _ => ?_)
  rw [Polynomial.eval_mul, Polynomial.eval_C, Polynomial.eval_pow, Polynomial.eval_X]

lemma eval_poly_mod_cast (p : ℕ) (hppos : 0 < p) (cs : List ℤ) (x : ℤ) :
    ((eval_poly_mod cs x (p : ℤ) : ℤ) : ZMod p)
      = (polyOfCoeffs p cs).eval ((x : ℤ) : ZMod p) := by
  have hform := (eval_poly_mod_props cs x (p : ℤ) (by exact_mod_cast hppos)).1
  rw [hform, ZMod.intCast_mod, polyOfCoeffs_eval]
  push_cast
  rfl

lemma polyOfCoeffs_eval_zero (p : ℕ) (cs : List ℤ) :
    (polyOfCoeffs p cs).eval 0 = ((cs.getD 0 0 : ℤ) : ZMod p) := by
  cases cs with
  | nil => simp [polyOfCoeffs]
  | cons c cs2 =>
      rw [polyOfCoeffs_eval]
      rw [Finset.sum_eq_single_of_mem 0 (Finset.mem_range.mpr (by simp))]
      · simp
      · intro i _ hi
        rw [zero_pow hi, mul_zero]

lemma polyOfCoeffs_eval_const (p : ℕ) (cs : List ℤ) (hlen : cs.length ≤ 1) (t : ZMod p) :
    (polyOfCoeffs p cs).eval t = (polyOfCoeffs p cs).eval 0 := by
  match cs, hlen with
  | [], _ => simp [polyOfCoeffs]
  | [c], _ => simp [polyOfCoeffs]

/- ------------------------------------------------------------------ -/
/- Evaluation of the combine path on flat share collections.           -/
/- ------------------------------------------------------------------ -/

lemma getLastD_single (x : ℤ) : ([x] : List ℤ).getLastD 0 = x := rfl

lemma commonPrefix2_nil_left (q : List ℤ) : commonPrefix2 [] q = [] := by
  simp [commonPrefix2]

lemma foldl_commonPrefix2_nil (rest : List Share) :
    rest.foldl (fun pr s2 => commonPrefix2 pr s2.path) [] = [] := by
  induction rest with
  | nil => rfl
  | cons s r ih => rw [List.foldl_cons, commonPrefix2_nil_left, ih]

lemma commonPrefix_flat_distinct (sh1 sh2 : Share) (rest : List Share)
    (x1 x2 : ℤ) (h1 : sh1.path = [x1]) (h2 : sh2.path = [x2]) (hx : x1 ≠ x2) :
    commonPrefix (sh1 :: sh2 :: rest) = .ok [] := by
  simp only [commonPrefix, List.foldl_cons]
  rw [h1, h2]
  rw [show commonPrefix2 [x1] [x2] = [] by
    simp [commonPrefix2, commonPrefixLength, hx]]
  rw [foldl_commonPrefix2_nil]

lemma find?_path_nil (sel : List Share) (h : ∀ sh ∈ sel, sh.path ≠ []) :
    sel.find? (fun sh => sh.path == ([] : List ℤ)) = none := by
  rw [List.find?_eq_none]
  intro sh hsh
  simp [h sh hsh]

lemma buildPool_flat_aux :
    ∀ (rest : List Share) (acc : List Share),
      (∀ sh ∈ rest, ∃ x : ℤ, sh.path = [x]) →
      buildPool 0 rest [([], acc)] = .ok [([], acc ++ rest)]
  | [], acc, _ => by simp [buildPool]
  | sh :: rest, acc, h => by
      obtain ⟨x, hx⟩ := h sh (List.mem_cons_self sh rest)
      have h1 : insertPrefixKeys [(([] : List ℤ), acc)] sh.path 0 = [([], acc)] := by
        rw [hx]; rfl
      have h2 : poolAppendVal [(([] : List ℤ), acc)] sh.path.dropLast sh
          = .ok [([], acc ++ [sh])] := by
        rw [hx]; rfl
      rw [buildPool, h1, h2]
      show buildPool 0 rest [([], acc ++ [sh])] = _
      rw [buildPool_flat_aux rest (acc ++ [sh])
        (fun s2 hs2 => h s2 (List.mem_cons_of_mem sh hs2))]
      simp

lemma sharesXs_flat :
    ∀ (sel : List Share), (∀ sh ∈ sel, ∃ x : ℤ, sh.path = [x]) →
      sharesXs sel = .ok (sel.map (fun sh => sh.path.getLastD 0))
  | [], _ => rfl
  | sh :: rest, h => by
      obtain ⟨x, hx⟩ := h sh (List.mem_cons_self sh rest)
      rw [sharesXs, Share.x, hx]
      simp only [List.getLast?_singleton]
      rw [sharesXs_flat rest (fun s2 hs2 => h s2 (List.mem_cons_of_mem sh hs2))]
      simp [hx, getLastD_single]

lemma recover_flat (p : ℕ) (hp : p.Prime) (coeffs : List ℤ) (sel : List Share)
    (hne : sel ≠ [])
    (hdeg : coeffs.length ≤ sel.length)
    (hshape : ∀ sh ∈ sel, ∃ x : ℤ, sh.path = [x])
    (hval : ∀ sh ∈ sel, 0 ≤ sh.value ∧ sh.value < (p : ℤ)
        ∧ ((sh.value : ZMod p) = (polyOfCoeffs p coeffs).eval
            ((sh.path.getLastD 0 : ℤ) : ZMod p)))
    (hdist : (sel.map (fun sh => sh.path.getLastD 0)).Pairwise
        (fun a b => ¬ ((p : ℤ) ∣ (a - b)))) :
    ∃ res, recover_secret (p : ℤ) sel = .ok (some res)
      ∧ 0 ≤ res.value ∧ res.value < (p : ℤ)
      ∧ ((res.value : ZMod p) = (polyOfCoeffs p coeffs).eval 0) := by
  match sel, hne with
  | [sh], _ =>
      obtain ⟨x, hx⟩ := hshape sh (by simp)
      obtain ⟨h0, hlt, hcast⟩ := hval sh (by simp)
      refine ⟨sh, ?_, h0, hlt, ?_⟩
      · simp [recover_secret, combine_shares, commonPrefix]
      · rw [hcast, polyOfCoeffs_eval_const p coeffs (by simpa using hdeg)]
  | sh1 :: sh2 :: rest, _ =>
      obtain ⟨x1, hx1⟩ := hshape sh1 (by simp)
      obtain ⟨x2, hx2⟩ := hshape sh2 (by simp)
      have hx1x2 : x1 ≠ x2 := by
        have hdist2 := hdist
        simp only [List.map_cons] at hdist2
        have hrel := List.rel_of_pairwise_cons hdist2 (List.mem_cons_self _ _)
        intro heq
        apply hrel
        rw [hx1, hx2, getLastD_single, getLastD_single, heq, sub_self]
        exact dvd_zero _
      have hpaths_ne : ∀ sh ∈ sh1 :: sh2 :: rest, sh.path ≠ [] := by
        intro sh hsh
        obtain ⟨x, hx⟩ := hshape sh hsh
        simp [hx]
      have hcp : commonPrefix (sh1 :: sh2 :: rest) = .ok [] :=
        commonPrefix_flat_distinct sh1 sh2 rest x1 x2 hx1 hx2 hx1x2
      have hfind := find?_path_nil (sh1 :: sh2 :: rest) hpaths_ne
      have hbuild : buildPool 0 (sh1 :: sh2 :: rest) [] = .ok [([], sh1 :: sh2 :: rest)] := by
        have h1 : insertPrefixKeys [] sh1.path 0 = [(([] : List ℤ), ([] : List Share))] := by
          rw [hx1]; rfl
        have h2 : poolAppendVal [(([] : List ℤ), ([] : List Share))] sh1.path.dropLast sh1
            = .ok [([], [sh1])] := by
          rw [hx1]; rfl
        rw [buildPool, h1, h2]
        show buildPool 0 (sh2 :: rest) [([], [sh1])] = _
        rw [buildPool_flat_aux (sh2 :: rest) [sh1]
          (fun s2 hs2 => hshape s2 (List.mem_cons_of_mem sh1 hs2))]
        rfl
      have hxs := sharesXs_flat (sh1 :: sh2 :: rest) hshape
      obtain ⟨r, hok, hr0, hrp, hrcast⟩ :=
        lagrange_interpolate_core p hp 0
          ((sh1 :: sh2 :: rest).map (fun sh => sh.path.getLastD 0))
          ((sh1 :: sh2 :: rest).map Share.value)
          (by simp) hdist (polyOfCoeffs p coeffs)
          (by
            rw [List.length_map]
            exact polyOfCoeffs_degree_lt p coeffs _ hdeg (by simp))
          (by
            intro i hi
            rw [List.length_map] at hi
            rw [List.getD_eq_getElem _ _ (by simpa using hi),
              List.getD_eq_getElem _ _ (by simpa using hi),
              List.getElem_map, List.getElem_map]
            exact ((hval _ (List.getElem_mem _)).2.2).symm)
      refine ⟨⟨r, []⟩, ?_, hr0, hrp, ?_⟩
      · rw [recover_secret, combine_shares, hcp]
        dsimp only
        rw [hfind]
        dsimp only
        rw [show (([] : List ℤ)).length = 0 from rfl, hbuild]
        dsimp only
        rw [show sortByLenDesc (List.map Prod.fst [(([] : List ℤ), sh1 :: sh2 :: rest)])
          = [[]] from rfl]
        rw [mergeLoop]
        rw [show poolLookup [(([] : List ℤ), sh1 :: sh2 :: rest)] [] =
          some (sh1 :: sh2 :: rest) from rfl]
        dsimp only
        rw [hxs]
        dsimp only
        rw [hok]
        dsimp only
        rw [if_pos rfl]
      · rw [hrcast]
        simp

lemma canonical_eq (p : ℕ) (hppos : 0 < p) (a b : ℤ)
    (ha0 : 0 ≤ a) (hap : a < (p : ℤ)) (hb0 : 0 ≤ b) (hbp : b < (p : ℤ))
    (h : (a : ZMod p) = (b : ZMod p)) : a = b := by
  have hmod := (ZMod.intCast_eq_intCast_iff' a b p).mp h
  rwa [Int.emod_eq_of_lt ha0 hap, Int.emod_eq_of_lt hb0 hbp] at hmod

/- ------------------------------------------------------------------ -/
/- C1: flat round trip.                                                -/
/- ------------------------------------------------------------------ -/

lemma validate_flat_ok (t n : ℤ) (h1 : ¬ t < 1) (h2 : ¬ n < 1) (h3 : ¬ n < t) :
    validate (ShamirSpec.mk t (.flat n)) = .ok () := by
  rw [validate, if_neg h1]
  dsimp only
  rw [if_neg h2]
  dsimp only
  rw [show num_shares (ShamirSpec.mk t (.flat n)) = some n from rfl]
  dsimp only
  rw [if_neg h3]

lemma generate_pool_flat_eq (p t n : ℤ) (secret : Share) (cs : List ℤ)
    (h1 : ¬ t < 1) (h2 : ¬ n < 1) (h3 : ¬ n < t) (h4 : ¬ n ≥ p) :
    generate_pool p secret (ShamirSpec.mk t (.flat n)) cs none
      = .ok ((seqIndices n).map (fun x =>
          (⟨eval_poly_mod ((secret.value % p) :: cs) x p, secret.path ++ [x]⟩ : Share))) := by
  rw [generate_pool, validate_flat_ok t n h1 h2 h3]
  dsimp only
  rw [rec_generate_pool]
  rw [show num_shares (ShamirSpec.mk t (.flat n)) = some n from rfl]
  dsimp only
  rw [if_neg h4]

lemma map_getLastD_gen (pre : List ℤ) (g : ℤ → ℤ) (l : List ℤ) :
    ((l.map (fun x => (⟨g x, pre ++ [x]⟩ : Share))).map
      (fun sh => sh.path.getLastD 0)) = l := by
  rw [List.map_map]
  conv_rhs => rw [← List.map_id l]
  refine List.map_congr_left (fun x _ => ?_)
  simp [Function.comp, List.getLastD_concat]

/-- C1: for a prime p, threshold k with 1 <= k <= n < p, and a canonical
secret s, generate_pool on the flat specification produces n shares with
paths (1,), ..., (n,), and recover_secret applied to any k-subset of
them returns a share whose value is exactly s — for every outcome cs of
the threshold - 1 random coefficient draws. -/
theorem generate_recover_roundtrip (p k n : ℕ) (hp : p.Prime) (hk : 1 ≤ k)
    (hkn : k ≤ n) (hnp : n < p) (s : ℤ) (hs0 : 0 ≤ s) (hsp : s < (p : ℤ))
    (cs : List ℤ) (hcs : cs.length = k - 1) :
    ∃ shs, generate_pool (p : ℤ) ⟨s, []⟩ (ShamirSpec.mk (k : ℤ) (.flat (n : ℤ))) cs none
        = .ok shs
      ∧ shs.length = n
      ∧ (∀ i, i < n → (shs.getD i ⟨0, []⟩).path = [(i : ℤ) + 1])
      ∧ (∀ sel : List Share, sel.Sublist shs → sel.length = k →
          ∃ res, recover_secret (p : ℤ) sel = .ok (some res) ∧ res.value = s) := by
  have hppos : 0 < p := hp.pos
  have hgen := generate_pool_flat_eq (p : ℤ) (k : ℤ) (n : ℤ) ⟨s, []⟩ cs
    (by omega) (by omega) (by omega) (by omega)
  set coeffs : List ℤ := (s % (p : ℤ)) :: cs with hcoeffs
  set shs : List Share := (seqIndices (n : ℤ)).map (fun x =>
    (⟨eval_poly_mod coeffs x (p : ℤ), [] ++ [x]⟩ : Share)) with hshs
  have hlen_seq : (seqIndices (n : ℤ)).length = n := by
    simp [seqIndices]
  have hseq_bnd : ∀ v ∈ seqIndices (n : ℤ), 1 ≤ v ∧ v < (p : ℤ) := by
    intro v hv
    obtain ⟨h1, h2⟩ := seqIndices_mem (n : ℤ) v hv
    exact ⟨h1, by omega⟩
  have hmapidx : shs.map (fun sh => sh.path.getLastD 0) = seqIndices (n : ℤ) :=
    map_getLastD_gen [] _ _
  refine ⟨shs, hgen, ?_, ?_, ?_⟩
  · simp [hshs, hlen_seq]
  · intro i hi
    have hi2 : i < shs.length := by simp [hshs, hlen_seq, hi]
    rw [List.getD_eq_getElem _ _ hi2]
    have hi3 : i < (seqIndices (n : ℤ)).length := by rw [hlen_seq]; exact hi
    simp only [hshs, List.getElem_map]
    rw [show (seqIndices (n : ℤ))[i] = (i : ℤ) + 1 by
      simp [seqIndices]]
    rfl
  · intro sel hsub hlensel
    have hdeg : coeffs.length ≤ sel.length := by
      simp only [hcoeffs, List.length_cons, hcs, hlensel]
      omega
    have hshape : ∀ sh ∈ sel, ∃ x : ℤ, sh.path = [x] := by
      intro sh hsh
      have hmem := hsub.subset hsh
      rw [hshs, List.mem_map] at hmem
      obtain ⟨x, _, rfl⟩ := hmem
      exact ⟨x, rfl⟩
    have hval : ∀ sh ∈ sel, 0 ≤ sh.value ∧ sh.value < (p : ℤ)
        ∧ ((sh.value : ZMod p) = (polyOfCoeffs p coeffs).eval
            ((sh.path.getLastD 0 : ℤ) : ZMod p)) := by
      intro sh hsh
      have hmem := hsub.subset hsh
      rw [hshs, List.mem_map] at hmem
      obtain ⟨x, _, rfl⟩ := hmem
      obtain ⟨_, hb0, hbp, _⟩ :=
        eval_poly_mod_props coeffs x (p : ℤ) (by exact_mod_cast hppos)
      refine ⟨hb0, hbp, ?_⟩
      rw [show (([] ++ [x] : List ℤ)).getLastD 0 = x by simp]
      exact eval_poly_mod_cast p hppos coeffs x
    have hdist : (sel.map (fun sh => sh.path.getLastD 0)).Pairwise
        (fun a b => ¬ ((p : ℤ) ∣ (a - b))) := by
      refine List.Pairwise.sublist (List.Sublist.map _ hsub) ?_
      rw [hmapidx]
      exact (bounded_distinct_mod p (seqIndices (n : ℤ))
        (seqIndices_nodup (n : ℤ)) hseq_bnd).1
    obtain ⟨res, hrec, hres0, hresp, hrescast⟩ :=
      recover_flat p hp coeffs sel
        (by rw [← List.length_pos]; omega) hdeg hshape hval hdist
    refine ⟨res, hrec, ?_⟩
    refine canonical_eq p hppos res.value s hres0 hresp hs0 hsp ?_
    rw [hrescast, polyOfCoeffs_eval_zero]
    rw [show coeffs.getD 0 0 = s % (p : ℤ) from rfl]
    exact ZMod.intCast_mod s p

/-- Closed witness for generate_recover_roundtrip: p = 5, threshold 2,
3 shares, secret 2, coefficient draw [1]. -/
theorem generate_recover_roundtrip_witness :
    ∃ shs, generate_pool ((5 : ℕ) : ℤ) ⟨2, []⟩
        (ShamirSpec.mk ((2 : ℕ) : ℤ) (.flat ((3 : ℕ) : ℤ))) [1] none = .ok shs
      ∧ shs.length = 3
      ∧ (∀ i, i < 3 → (shs.getD i ⟨0, []⟩).path = [(i : ℤ) + 1])
      ∧ (∀ sel : List Share, sel.Sublist shs → sel.length = 2 →
          ∃ res, recover_secret ((5 : ℕ) : ℤ) sel = .ok (some res) ∧ res.value = 2) :=
  generate_recover_roundtrip 5 2 3 (by norm_num) (by norm_num) (by norm_num)
    (by norm_num) 2 (by norm_num) (by norm_num) [1] rfl

/- ------------------------------------------------------------------ -/
/- C3: pool extension.                                                 -/
/- ------------------------------------------------------------------ -/

lemma activeUpsert_fresh :
    ∀ (acc : List (List ℤ × List Share)) (k : List ℤ) (sh : Share),
      (∀ e ∈ acc, e.1 ≠ k) → activeUpsert acc k sh = acc ++ [(k, [sh])]
  | [], _, _, _ => rfl
  | e :: rest, k, sh, h => by
      rw [activeUpsert, if_neg (h e (List.mem_cons_self e rest))]
      rw [activeUpsert_fresh rest k sh (fun e2 he2 => h e2 (List.mem_cons_of_mem e he2))]
      rfl

lemma buildActive_flat :
    ∀ (rest : List Share) (acc : List (List ℤ × List Share)),
      (∀ sh ∈ rest, ∃ x : ℤ, sh.path = [x]) →
      (∀ sh ∈ rest, ∀ e ∈ acc, e.1 ≠ sh.path) →
      (rest.map Share.path).Nodup →
      buildActive [] rest acc = acc ++ rest.map (fun sh => (sh.path, [sh]))
  | [], acc, _, _, _ => by simp [buildActive]
  | sh :: rest, acc, hshape, hfresh, hnd => by
      obtain ⟨x, hx⟩ := hshape sh (List.mem_cons_self sh rest)
      rw [buildActive, if_pos (by rw [hx]; simp)]
      rw [show sh.path.take (([] : List ℤ).length + 1) = sh.path by rw [hx]; rfl]
      rw [activeUpsert_fresh acc sh.path sh
        (fun e he => hfresh sh (List.mem_cons_self sh rest) e he)]
      rw [List.map_cons, List.nodup_cons] at hnd
      rw [buildActive_flat rest (acc ++ [(sh.path, [sh])])
        (fun s2 hs2 => hshape s2 (List.mem_cons_of_mem sh hs2))
        (by
          intro s2 hs2 e he
          rcases List.mem_append.mp he with hacc | hsingle
          · exact hfresh s2 (List.mem_cons_of_mem sh hs2) e hacc
          · rw [List.mem_singleton] at hsingle
            subst hsingle
            intro heq
            have hmem2 : s2.path ∈ rest.map Share.path :=
              List.mem_map_of_mem Share.path hs2
            rw [← heq] at hmem2
            exact hnd.1 hmem2)
        hnd.2]
      simp

lemma combine_singleton (p : ℤ) (sh : Share) : combine_shares p [sh] = .ok (some sh) := by
  simp [combine_shares, commonPrefix]

lemma peersOf_singletons (p : ℤ) :
    ∀ (groups : List Share),
      peersOf p (groups.map (fun sh => (sh.path, [sh]))) = .ok groups
  | [] => rfl
  | sh :: rest => by
      rw [List.map_cons, peersOf, combine_singleton]
      rw [peersOf_singletons p rest]

lemma paths_nodup_of_idx_pairwise (p : ℕ) (sel : List Share)
    (hshape : ∀ sh ∈ sel, ∃ x : ℤ, sh.path = [x])
    (hdist : (sel.map (fun sh => sh.path.getLastD 0)).Pairwise
        (fun a b => ¬ ((p : ℤ) ∣ (a - b)))) :
    (sel.map Share.path).Nodup := by
  rw [List.pairwise_map] at hdist
  rw [List.Nodup, List.pairwise_map]
  refine hdist.imp_of_mem ?_
  intro a b ha hb hrel heq
  apply hrel
  rw [show a.path.getLastD 0 = b.path.getLastD 0 by rw [heq], sub_self]
  exact dvd_zero _

lemma extend_flat (p : ℕ) (hp : p.Prime) (coeffs : List ℤ) (sel : List Share) (xnew : ℤ)
    (hne : sel ≠ []) (hdeg : coeffs.length ≤ sel.length)
    (hx0 : ¬ (xnew % (p : ℤ) = 0))
    (hshape : ∀ sh ∈ sel, ∃ x : ℤ, sh.path = [x])
    (hval : ∀ sh ∈ sel, 0 ≤ sh.value ∧ sh.value < (p : ℤ)
        ∧ ((sh.value : ZMod p) = (polyOfCoeffs p coeffs).eval
            ((sh.path.getLastD 0 : ℤ) : ZMod p)))
    (hdist : (sel.map (fun sh => sh.path.getLastD 0)).Pairwise
        (fun a b => ¬ ((p : ℤ) ∣ (a - b)))) :
    ∃ ext, extend_pool (p : ℤ) (.inl xnew) sel = .ok (some ext)
      ∧ ext.path = [xnew] ∧ 0 ≤ ext.value ∧ ext.value < (p : ℤ)
      ∧ ((ext.value : ZMod p) = (polyOfCoeffs p coeffs).eval ((xnew : ℤ) : ZMod p)) := by
  have hone : 1 ≤ sel.length := by
    rw [Nat.one_le_iff_ne_zero]
    simpa [List.length_eq_zero] using hne
  obtain ⟨r, hok, hr0, hrp, hrcast⟩ :=
    lagrange_interpolate_core p hp xnew
      (sel.map (fun sh => sh.path.getLastD 0)) (sel.map Share.value)
      (by simp) hdist (polyOfCoeffs p coeffs)
      (by
        rw [List.length_map]
        exact polyOfCoeffs_degree_lt p coeffs _ hdeg hone)
      (by
        intro i hi
        rw [List.length_map] at hi
        rw [List.getD_eq_getElem _ _ (by simpa using hi),
          List.getD_eq_getElem _ _ (by simpa using hi),
          List.getElem_map, List.getElem_map]
        exact ((hval _ (List.getElem_mem _)).2.2).symm)
  refine ⟨⟨r, [xnew]⟩, ?_, rfl, hr0, hrp, hrcast⟩
  rw [extend_pool, extendGo, if_neg (by simp [hx0]), if_neg hne]
  rw [show buildActive [] sel [] = sel.map (fun sh => (sh.path, [sh])) by
    rw [buildActive_flat sel [] hshape (by simp)
      (paths_nodup_of_idx_pairwise p sel hshape hdist)]
    simp]
  rw [peersOf_singletons]
  dsimp only
  rw [if_neg hne, sharesXs_flat sel hshape]
  dsimp only
  rw [hok]
  rfl

/-- C3: for a flat pool of n shares with threshold k generated from a
canonical secret s (n + 1 < p), extend_pool with the new index n + 1
applied to any selection of at least k of the generated shares returns a
new share with path (n+1,), and recover_secret applied to any k-subset
of the n + 1 shares (the n generated ones plus the extension) returns
the original secret — for every outcome cs of the random coefficient
draws. -/
theorem extend_recover_consistency (p k n : ℕ) (hp : p.Prime) (hk : 1 ≤ k)
    (hkn : k ≤ n) (hn1p : n + 1 < p) (s : ℤ) (hs0 : 0 ≤ s) (hsp : s < (p : ℤ))
    (cs : List ℤ) (hcs : cs.length = k - 1) :
    ∃ shs, generate_pool (p : ℤ) ⟨s, []⟩ (ShamirSpec.mk (k : ℤ) (.flat (n : ℤ))) cs none
        = .ok shs
      ∧ ∀ sel : List Share, sel.Sublist shs → k ≤ sel.length →
          ∃ ext, extend_pool (p : ℤ) (.inl ((n : ℤ) + 1)) sel = .ok (some ext)
            ∧ ext.path = [(n : ℤ) + 1]
            ∧ ∀ sel2 : List Share, sel2.Sublist (shs ++ [ext]) → sel2.length = k →
                ∃ res, recover_secret (p : ℤ) sel2 = .ok (some res) ∧ res.value = s := by
  have hppos : 0 < p := hp.pos
  have hgen := generate_pool_flat_eq (p : ℤ) (k : ℤ) (n : ℤ) ⟨s, []⟩ cs
    (by omega) (by omega) (by omega) (by omega)
  set coeffs : List ℤ := (s % (p : ℤ)) :: cs with hcoeffs
  set shs : List Share := (seqIndices (n : ℤ)).map (fun x =>
    (⟨eval_poly_mod coeffs x (p : ℤ), [] ++ [x]⟩ : Share)) with hshs
  have hcoeffslen : coeffs.length = k := by
    simp only [hcoeffs, List.length_cons, hcs]
    omega
  have hseq_bnd : ∀ v ∈ seqIndices (n : ℤ), 1 ≤ v ∧ v < (p : ℤ) := by
    intro v hv
    obtain ⟨h1, h2⟩ := seqIndices_mem (n : ℤ) v hv
    exact ⟨h1, by omega⟩
  have hmapidx : shs.map (fun sh => sh.path.getLastD 0) = seqIndices (n : ℤ) :=
    map_getLastD_gen [] _ _
  have hshape_shs : ∀ sh ∈ shs, ∃ x : ℤ, sh.path = [x] := by
    intro sh hsh
    rw [hshs, List.mem_map] at hsh
    obtain ⟨x, _, rfl⟩ := hsh
    exact ⟨x, rfl⟩
  have hval_shs : ∀ sh ∈ shs, 0 ≤ sh.value ∧ sh.value < (p : ℤ)
      ∧ ((sh.value : ZMod p) = (polyOfCoeffs p coeffs).eval
          ((sh.path.getLastD 0 : ℤ) : ZMod p)) := by
    intro sh hsh
    rw [hshs, List.mem_map] at hsh
    obtain ⟨x, _, rfl⟩ := hsh
    obtain ⟨_, hb0, hbp, _⟩ :=
      eval_poly_mod_props coeffs x (p : ℤ) (by exact_mod_cast hppos)
    refine ⟨hb0, hbp, ?_⟩
    rw [show (([] ++ [x] : List ℤ)).getLastD 0 = x by simp]
    exact eval_poly_mod_cast p hppos coeffs x
  refine ⟨shs, hgen, ?_⟩
  intro sel hsub hlensel
  have hselne : sel ≠ [] := by
    rw [← List.length_pos]
    omega
  have hdist_sel : (sel.map (fun sh => sh.path.getLastD 0)).Pairwise
      (fun a b => ¬ ((p : ℤ) ∣ (a - b))) := by
    refine List.Pairwise.sublist (List.Sublist.map _ hsub) ?_
    rw [hmapidx]
    exact (bounded_distinct_mod p (seqIndices (n : ℤ))
      (seqIndices_nodup (n : ℤ)) hseq_bnd).1
  obtain ⟨ext, hext, hextpath, hext0, hextp, hextcast⟩ :=
    extend_flat p hp coeffs sel ((n : ℤ) + 1) hselne (by omega)
      (by
        rw [Int.emod_eq_of_lt (by omega) (by exact_mod_cast hn1p)]
        omega)
      (fun sh hsh => hshape_shs sh (hsub.subset hsh))
      (fun sh hsh => hval_shs sh (hsub.subset hsh))
      hdist_sel
  refine ⟨ext, hext, hextpath, ?_⟩
  intro sel2 hsub2 hlen2
  have hpool2idx : ((shs ++ [ext]).map (fun sh => sh.path.getLastD 0))
      = seqIndices ((n : ℤ) + 1) := by
    rw [List.map_append, hmapidx]
    rw [show ([ext].map (fun sh => sh.path.getLastD 0)) = [(n : ℤ) + 1] by
      simp [hextpath, getLastD_single]]
    rw [show seqIndices ((n : ℤ) + 1) = seqIndices (n : ℤ) ++ [(n : ℤ) + 1] by
      unfold seqIndices
      rw [show ((n : ℤ) + 1).toNat = n + 1 by omega,
        show ((n : ℤ)).toNat = n by omega, List.range_succ, List.map_append]
      simp]
  have hpool2_bnd : ∀ v ∈ (shs ++ [ext]).map (fun sh => sh.path.getLastD 0),
      1 ≤ v ∧ v < (p : ℤ) := by
    rw [hpool2idx]
    intro v hv
    rw [show seqIndices ((n : ℤ) + 1) = seqIndices ((n + 1 : ℕ) : ℤ) by push_cast; rfl] at hv
    obtain ⟨h1, h2⟩ := seqIndices_mem ((n + 1 : ℕ) : ℤ) v hv
    refine ⟨h1, by omega⟩
  have hpool2_nodup : ((shs ++ [ext]).map (fun sh => sh.path.getLastD 0)).Nodup := by
    rw [hpool2idx]
    exact seqIndices_nodup _
  obtain ⟨res, hrec, hres0, hresp, hrescast⟩ :=
    recover_flat p hp coeffs sel2
      (by rw [← List.length_pos]; omega)
      (by omega)
      (by
        intro sh hsh
        rcases List.mem_append.mp (hsub2.subset hsh) with hmem | hmem
        · exact hshape_shs sh hmem
        · rw [List.mem_singleton] at hmem
          subst hmem
          exact ⟨(n : ℤ) + 1, hextpath⟩)
      (by
        intro sh hsh
        rcases List.mem_append.mp (hsub2.subset hsh) with hmem | hmem
        · exact hval_shs sh hmem
        · rw [List.mem_singleton] at hmem
          subst hmem
          refine ⟨hext0, hextp, ?_⟩
          rw [hextpath, getLastD_single]
          exact hextcast)
      (by
        refine List.Pairwise.sublist (List.Sublist.map _ hsub2) ?_
        exact (bounded_distinct_mod p _ hpool2_nodup hpool2_bnd).1)
  refine ⟨res, hrec, ?_⟩
  refine canonical_eq p hppos res.value s hres0 hresp hs0 hsp ?_
  rw [hrescast, polyOfCoeffs_eval_zero]
  rw [show coeffs.getD 0 0 = s % (p : ℤ) from rfl]
  exact ZMod.intCast_mod s p

/-- Closed witness for extend_recover_consistency: p = 5, threshold 2,
3 shares, secret 2, coefficient draw [1], extension index 4. -/
theorem extend_recover_consistency_witness :
    ∃ shs, generate_pool ((5 : ℕ) : ℤ) ⟨2, []⟩
        (ShamirSpec.mk ((2 : ℕ) : ℤ) (.flat ((3 : ℕ) : ℤ))) [1] none = .ok shs
      ∧ ∀ sel : List Share, sel.Sublist shs → 2 ≤ sel.length →
          ∃ ext, extend_pool ((5 : ℕ) : ℤ) (.inl (((3 : ℕ) : ℤ) + 1)) sel = .ok (some ext)
            ∧ ext.path = [((3 : ℕ) : ℤ) + 1]
            ∧ ∀ sel2 : List Share, sel2.Sublist (shs ++ [ext]) → sel2.length = 2 →
                ∃ res, recover_secret ((5 : ℕ) : ℤ) sel2 = .ok (some res)
                  ∧ res.value = 2 :=
  extend_recover_consistency 5 2 3 (by norm_num) (by norm_num) (by norm_num)
    (by norm_num) 2 (by norm_num) (by norm_num) [1] rfl

end Shamir
